import Mathlib

/-!
Fibonacci series printer (`generated_code_fibo.cpp`)

A shallow embedding of `main` of `generated_code_fibo.cpp`.

* `int` is the 32-bit two's-complement integer type: values are `Int`s in
  `[INT_MIN, INT_MAX]` and every `+` / `++` of the program is followed by `wrapInt`.
* The interaction with `std::cin` / `std::cout` is recorded as a list of `Event`s, one per
  `<<` or `>>` of the source, in program order.  `render` gives the text on standard output,
  `printedTerms` the integers that were written, `afterRead` the events that follow the read.
* The `for` loop is run with a bound `fuel` on the number of iterations of its body;
  `Except.error` carries the events produced so far when the bound is reached with the loop
  still running, `Except.ok` the result of a run that reached `return 0`.
-/

namespace Fibo

/-! ## Machine integers -/

/-- Smallest value of a 32-bit `int`. -/
def INT_MIN : Int := -2147483648

/-- Largest value of a 32-bit `int`. -/
def INT_MAX : Int := 2147483647

/-- Reduction of an integer into the range of a 32-bit two's-complement `int`. -/
def wrapInt (x : Int) : Int := (x + 2147483648) % 4294967296 - 2147483648

/-! ## Input and output events -/

/-- One operation on `std::cin` / `std::cout`. -/
inductive Event where
  /-- The statement `std::cout << "..."` with a string literal. -/
  | put (s : String)
  /-- The statement `std::cout << v` with an `int`. -/
  | putInt (v : Int)
  /-- The statement `std::cout << std::endl`. -/
  | endl
  /-- The statement `std::cin >> n`, storing `v` in `n`. -/
  | get (v : Int)
  deriving DecidableEq, Repr

/-- Decimal text of an `int` as `operator<<` writes it: a minus sign for a negative value,
then the digits without leading zeros. -/
def decimal (v : Int) : String :=
  if v < 0 then "-" ++ Nat.repr v.natAbs else Nat.repr v.natAbs

/-- Text that one event adds to standard output. -/
def Event.text : Event → String
  | .put s => s
  | .putInt v => decimal v
  | .endl => "\n"
  | .get _ => ""

/-- Text on standard output after a list of events. -/
def render : List Event → String
  | [] => ""
  | e :: es => e.text ++ render es

/-- The integers written to standard output, in order. -/
def printedTerms : List Event → List Int
  | [] => []
  | .putInt v :: es => v :: printedTerms es
  | _ :: es => printedTerms es

/-- The events that follow the (first) read of the input. -/
def afterRead : List Event → List Event
  | [] => []
  | .get _ :: es => es
  | _ :: es => afterRead es

/-! ## The program -/

/-- Local variables of `main` together with the events produced so far. -/
structure State where
  /-- The variable `n`. -/
  n : Int
  /-- The variable `t1`. -/
  t1 : Int
  /-- The variable `t2`. -/
  t2 : Int
  /-- The variable `nextTerm`. -/
  nextTerm : Int
  /-- The events on `std::cin` / `std::cout` so far. -/
  trace : List Event
  deriving DecidableEq, Repr

/-- Append output events to the trace of a state. -/
def State.out (s : State) (es : List Event) : State :=
  { s with trace := s.trace ++ es }

/-- Body of the `for` loop (lines 18-21). -/
def loopBody (s : State) : State :=
  let s := { s with nextTerm := wrapInt (s.t1 + s.t2) }
  let s := s.out [.put ", ", .putInt s.nextTerm]
  let s := { s with t1 := s.t2 }
  { s with t2 := s.nextTerm }

/-- The loop `for (int i = 3; i <= n; ++i) { ... }` from the point where the condition is
tested with loop counter `i`, running the body at most `fuel` times. -/
def loop : Nat → Int → State → Except State State
  | 0, i, s => if i ≤ s.n then .error s else .ok s
  | fuel + 1, i, s =>
    if i ≤ s.n then loop fuel (wrapInt (i + 1)) (loopBody s) else .ok s

/-- Outcome of a run of `main` that reached `return`. -/
structure Result where
  /-- The events on `std::cin` / `std::cout` of the whole run. -/
  trace : List Event
  /-- The value returned by `main`. -/
  status : Int
  deriving DecidableEq, Repr

/-- The function `main`, reading the value `n` from standard input. -/
def main (fuel : Nat) (n : Int) : Except (List Event) Result :=
  let trace : List Event := [.put "Enter the number of terms: "]
  let trace := trace ++ [.get n]
  let s : State := { n := n, t1 := 0, t2 := 1, nextTerm := 0, trace := trace }
  if s.n ≤ 0 then
    let s := s.out [.put "Please enter a positive integer for the number of terms.", .endl]
    .ok { trace := s.trace, status := 0 }
  else if s.n = 1 then
    let s := s.out [.put "Fibonacci Series: ", .putInt s.t1, .endl]
    .ok { trace := s.trace, status := 0 }
  else
    let s := s.out [.put "Fibonacci Series: ", .putInt s.t1, .put ", ", .putInt s.t2]
    match loop fuel 3 s with
    | .error s => .error s.trace
    | .ok s =>
      let s := s.out [.endl]
      .ok { trace := s.trace, status := 0 }

/-! ## Reference sequence -/

/-- The pair of consecutive terms `(term k, term (k+1))` of the sequence seeded with 0 and 1
in which every further term is the 32-bit wrapped sum of the two before it. -/
def fibPair : Nat → Int × Int
  | 0 => (0, 1)
  | k + 1 => ((fibPair k).2, wrapInt ((fibPair k).1 + (fibPair k).2))

/-- Term `k` (counted from 0) of the wrapped sequence. -/
def fibTerm (k : Nat) : Int := (fibPair k).1

/-- The events of `m` passes through the loop body that start with `t1 = fibTerm j`. -/
def loopEvents (j : Nat) : Nat → List Event
  | 0 => []
  | m + 1 => .put ", " :: .putInt (fibTerm (j + 2)) :: loopEvents (j + 1) m

/-- The text `", v₁, v₂, ..."` of the further terms of a result line. -/
def furtherTerms : List Int → String
  | [] => ""
  | v :: vs => ", " ++ decimal v ++ furtherTerms vs

/-- The events of a run for `n ≥ 2` up to the end of `m` passes through the loop body. -/
def seriesEvents (n : Int) (m : Nat) : List Event :=
  .put "Enter the number of terms: " :: .get n :: .put "Fibonacci Series: " :: .putInt 0 ::
    .put ", " :: .putInt 1 :: loopEvents 0 m

/-! ## Observation of the loop -/

/-- The variables and events of `main` when the `for` loop is entered (after line 16), on the
path taken for `n ≥ 2`. -/
def loopEntry (n : Int) : State :=
  { n := n, t1 := 0, t2 := 1, nextTerm := 0,
    trace := [.put "Enter the number of terms: ", .get n, .put "Fibonacci Series: ",
      .putInt 0, .put ", ", .putInt 1] }

/-- The loop counter and the variables at the start of pass number `k` (counted from 0)
through the body of the loop that is entered with counter `i` in state `s`; `none` when the
loop exits before that pass.  It follows `loop` step by step. -/
def passStart : Nat → Int → State → Option (Int × State)
  | 0, i, s => if i ≤ s.n then some (i, s) else none
  | k + 1, i, s => if i ≤ s.n then passStart k (wrapInt (i + 1)) (loopBody s) else none

/-- The events produced by the run of `main` within `fuel` passes through the loop body,
whether the run has returned by then or not. -/
def runTrace (fuel : Nat) (n : Int) : List Event :=
  match main fuel n with
  | .ok r => r.trace
  | .error t => t

/-! ## Machine integer lemmas -/

theorem wrapInt_le_max (x : Int) : wrapInt x ≤ INT_MAX := by
  unfold wrapInt INT_MAX; omega

theorem min_le_wrapInt (x : Int) : INT_MIN ≤ wrapInt x := by
  unfold wrapInt INT_MIN; omega

theorem wrapInt_of_range {x : Int} (h1 : INT_MIN ≤ x) (h2 : x ≤ INT_MAX) : wrapInt x = x := by
  unfold wrapInt; unfold INT_MIN at h1; unfold INT_MAX at h2; omega

/-! ## Reference sequence lemmas -/

theorem fibTerm_zero : fibTerm 0 = 0 := rfl

theorem fibTerm_one : fibTerm 1 = 1 := rfl

theorem fibPair_snd (k : Nat) : (fibPair k).2 = fibTerm (k + 1) := rfl

theorem fibTerm_add_two (k : Nat) :
    fibTerm (k + 2) = wrapInt (fibTerm k + fibTerm (k + 1)) := rfl

/-! ## Trace lemmas -/

theorem render_append (a b : List Event) : render (a ++ b) = render a ++ render b := by
  induction a with
  | nil => simp [render]
  | cons e es ih => simp [render, ih, String.append_assoc]

theorem printedTerms_append (a b : List Event) :
    printedTerms (a ++ b) = printedTerms a ++ printedTerms b := by
  induction a with
  | nil => simp [printedTerms]
  | cons e es ih => cases e <;> simp [printedTerms, ih]

theorem printedTerms_loopEvents (j m : Nat) :
    printedTerms (loopEvents j m) = (List.range m).map (fun q => fibTerm (j + 2 + q)) := by
  induction m generalizing j with
  | zero => simp [loopEvents, printedTerms]
  | succ m ih =>
    simp only [loopEvents, printedTerms, ih, List.range_succ_eq_map, List.map_cons,
      List.map_map, Nat.add_zero]
    congr 1
    apply List.map_congr_left
    intro q _
    simp only [Function.comp_apply]
    congr 1
    omega

theorem length_printedTerms_loopEvents (j m : Nat) :
    (printedTerms (loopEvents j m)).length = m := by
  simp [printedTerms_loopEvents]

theorem render_loopEvents (j m : Nat) :
    render (loopEvents j m) = furtherTerms (printedTerms (loopEvents j m)) := by
  induction m generalizing j with
  | zero => simp [loopEvents, printedTerms, render, furtherTerms]
  | succ m ih =>
    simp [loopEvents, printedTerms, render, furtherTerms, ih, Event.text, String.append_assoc]

theorem endl_not_mem_loopEvents (j m : Nat) : Event.endl ∉ loopEvents j m := by
  induction m generalizing j with
  | zero => simp [loopEvents]
  | succ m ih => simp [loopEvents, ih]

/-! ## The loop -/

theorem loopBody_n (s : State) : (loopBody s).n = s.n := rfl

theorem loopBody_t1 (s : State) : (loopBody s).t1 = s.t2 := rfl

theorem loopBody_t2 (s : State) : (loopBody s).t2 = wrapInt (s.t1 + s.t2) := rfl

theorem loopBody_trace (s : State) :
    (loopBody s).trace = s.trace ++ [.put ", ", .putInt (wrapInt (s.t1 + s.t2))] := rfl

/-- With `m` passes left before the counter exceeds `n < INT_MAX`, the loop exits after
exactly those `m` passes. -/
theorem loop_ok (m : Nat) : ∀ (fuel : Nat) (i : Int) (s : State) (j : Nat),
    m ≤ fuel → i + m = s.n + 1 → INT_MIN ≤ i → s.n < INT_MAX →
    s.t1 = fibTerm j → s.t2 = fibTerm (j + 1) →
    ∃ s', loop fuel i s = .ok s' ∧ s'.trace = s.trace ++ loopEvents j m := by
  induction m with
  | zero =>
    intro fuel i s j _ hi _ _ _ _
    have hgt : ¬ i ≤ s.n := by omega
    refine ⟨s, ?_, by simp [loopEvents]⟩
    cases fuel <;> simp [loop, hgt]
  | succ m ih =>
    intro fuel i s j hf hi hlo hn h1 h2
    have hle : i ≤ s.n := by omega
    obtain ⟨fuel, rfl⟩ : ∃ f, fuel = f + 1 := ⟨fuel - 1, by omega⟩
    have hw : wrapInt (i + 1) = i + 1 := by
      apply wrapInt_of_range
      · unfold INT_MIN at *; omega
      · unfold INT_MAX at *; omega
    obtain ⟨s', hs', ht⟩ := ih fuel (i + 1) (loopBody s) (j + 1) (by omega)
      (by rw [loopBody_n]; push_cast at hi; omega) (by omega) (by rw [loopBody_n]; exact hn)
      (by rw [loopBody_t1, h2])
      (by rw [loopBody_t2, h1, h2]; rfl)
    refine ⟨s', ?_, ?_⟩
    · simp only [loop, hle, if_true, hw]; exact hs'
    · rw [ht, loopBody_trace, h1, h2, List.append_assoc]; rfl

/-- For `n = INT_MAX` the condition `i <= n` holds for every value of the counter: the loop
uses up any number of passes. -/
theorem loop_error (fuel : Nat) : ∀ (i : Int) (s : State) (j : Nat),
    i ≤ INT_MAX → s.n = INT_MAX → s.t1 = fibTerm j → s.t2 = fibTerm (j + 1) →
    ∃ s', loop fuel i s = .error s' ∧ s'.trace = s.trace ++ loopEvents j fuel := by
  induction fuel with
  | zero =>
    intro i s j hi hn _ _
    exact ⟨s, by simp [loop, hn, hi], by simp [loopEvents]⟩
  | succ fuel ih =>
    intro i s j hi hn h1 h2
    obtain ⟨s', hs', ht⟩ := ih (wrapInt (i + 1)) (loopBody s) (j + 1) (wrapInt_le_max _)
      (by rw [loopBody_n]; exact hn) (by rw [loopBody_t1, h2])
      (by rw [loopBody_t2, h1, h2]; rfl)
    refine ⟨s', ?_, ?_⟩
    · simp only [loop, hn, hi, if_true]; exact hs'
    · rw [ht, loopBody_trace, h1, h2, List.append_assoc]; rfl

/-! ## Runs of `main` -/

theorem main_nonpos {n : Int} (h : n ≤ 0) (fuel : Nat) :
    main fuel n = .ok { trace := [.put "Enter the number of terms: ", .get n,
      .put "Please enter a positive integer for the number of terms.", .endl], status := 0 } := by
  simp [main, h, State.out]

theorem main_one (fuel : Nat) :
    main fuel 1 = .ok { trace := [.put "Enter the number of terms: ", .get 1,
      .put "Fibonacci Series: ", .putInt 0, .endl], status := 0 } := by
  simp [main, State.out]

theorem main_series {n : Int} (h2 : 2 ≤ n) (hmax : n < INT_MAX) {fuel : Nat}
    (hf : (n - 2).toNat ≤ fuel) :
    main fuel n = .ok { trace := seriesEvents n (n - 2).toNat ++ [.endl], status := 0 } := by
  have h0 : ¬ n ≤ 0 := by omega
  have h1 : ¬ n = 1 := by omega
  obtain ⟨s', hs', ht⟩ := loop_ok (n - 2).toNat fuel 3
    { n := n, t1 := 0, t2 := 1, nextTerm := 0,
      trace := [.put "Enter the number of terms: ", .get n, .put "Fibonacci Series: ",
        .putInt 0, .put ", ", .putInt 1] } 0 hf
    (by simp only; omega) (by unfold INT_MIN; omega) hmax rfl rfl
  simp only [main, h0, h1, if_false, State.out, List.cons_append, List.nil_append]
  rw [hs']
  simp only [ht, seriesEvents, List.cons_append, List.nil_append, List.append_assoc]

theorem main_int_max (fuel : Nat) :
    main fuel 2147483647 = .error (seriesEvents 2147483647 fuel) := by
  obtain ⟨s', hs', ht⟩ := loop_error fuel 3
    { n := 2147483647, t1 := 0, t2 := 1, nextTerm := 0,
      trace := [.put "Enter the number of terms: ", .get 2147483647, .put "Fibonacci Series: ",
        .putInt 0, .put ", ", .putInt 1] } 0
    (by unfold INT_MAX; omega) rfl rfl rfl
  simp only [main, State.out, List.cons_append, List.nil_append]
  rw [if_neg (by decide), if_neg (by decide), hs']
  simp only [ht, seriesEvents, List.cons_append, List.nil_append]

/-! ## The reference sequence and the Fibonacci numbers -/

theorem wrapInt_add_wrapInt (a b : Int) : wrapInt (wrapInt a + wrapInt b) = wrapInt (a + b) := by
  unfold wrapInt; omega

theorem fibPair_eq (k : Nat) :
    fibPair k = (wrapInt (Nat.fib k), wrapInt (Nat.fib (k + 1))) := by
  induction k with
  | zero => rfl
  | succ k ih =>
    rw [fibPair, ih]
    simp only [wrapInt_add_wrapInt, Nat.fib_add_two, Nat.cast_add]

theorem fibTerm_eq_wrapInt_fib (k : Nat) : fibTerm k = wrapInt (Nat.fib k) := by
  unfold fibTerm; rw [fibPair_eq]

theorem fib_46 : Nat.fib 46 = 1836311903 := by norm_num

theorem fibTerm_eq_fib {k : Nat} (h : k ≤ 46) : fibTerm k = Nat.fib k := by
  rw [fibTerm_eq_wrapInt_fib]
  have hle : Nat.fib k ≤ 1836311903 := fib_46 ▸ Nat.fib_mono h
  apply wrapInt_of_range
  · unfold INT_MIN; omega
  · unfold INT_MAX; omega

/-! ## Printed terms and text of a run for `n ≥ 2` -/

theorem printedTerms_seriesEvents (n : Int) (m : Nat) :
    printedTerms (seriesEvents n m) = (List.range (m + 2)).map fibTerm := by
  simp only [seriesEvents, printedTerms, printedTerms_loopEvents, List.range_succ_eq_map,
    List.map_cons, List.map_map]
  refine congrArg₂ _ rfl (congrArg₂ _ rfl ?_)
  apply List.map_congr_left
  intro q _
  simp only [Function.comp_apply]
  congr 1
  omega

theorem printedTerms_series_run (n : Int) (m : Nat) :
    printedTerms (seriesEvents n m ++ [.endl]) = (List.range (m + 2)).map fibTerm := by
  rw [printedTerms_append, printedTerms_seriesEvents]; simp [printedTerms]

theorem getElem?_printedTerms_series_run (n : Int) (m k : Nat) (h : k < m + 2) :
    (printedTerms (seriesEvents n m ++ [.endl]))[k]? = some (fibTerm k) := by
  rw [printedTerms_series_run, List.getElem?_map, List.getElem?_range h]; rfl

theorem afterRead_seriesEvents (n : Int) (m : Nat) :
    afterRead (seriesEvents n m) =
      [.put "Fibonacci Series: ", .putInt 0, .put ", ", .putInt 1] ++ loopEvents 0 m := rfl

theorem render_series_head :
    render [.put "Fibonacci Series: ", .putInt 0, .put ", ", .putInt 1]
      = "Fibonacci Series: 0, 1" := by decide

theorem render_seriesEvents (n : Int) (m : Nat) :
    render (seriesEvents n m) = "Enter the number of terms: " ++
      ("Fibonacci Series: 0, 1" ++ furtherTerms (printedTerms (loopEvents 0 m))) := by
  have h : seriesEvents n m = [.put "Enter the number of terms: ", .get n] ++
      ([.put "Fibonacci Series: ", .putInt 0, .put ", ", .putInt 1] ++ loopEvents 0 m) := rfl
  rw [h, render_append, render_append, render_series_head, render_loopEvents]
  simp [render, Event.text]

theorem render_afterRead_seriesEvents (n : Int) (m : Nat) :
    render (afterRead (seriesEvents n m)) =
      "Fibonacci Series: 0, 1" ++ furtherTerms (printedTerms (loopEvents 0 m)) := by
  rw [afterRead_seriesEvents, render_append, render_series_head, render_loopEvents]

theorem afterRead_series_run (n : Int) (m : Nat) :
    afterRead (seriesEvents n m ++ [.endl]) = afterRead (seriesEvents n m) ++ [.endl] := rfl

theorem render_endl : render [.endl] = "\n" := by decide

theorem render_series_run (n : Int) (m : Nat) :
    render (seriesEvents n m ++ [.endl]) = "Enter the number of terms: " ++
      ("Fibonacci Series: 0, 1" ++ furtherTerms (printedTerms (loopEvents 0 m))) ++ "\n" := by
  rw [render_append, render_seriesEvents, render_endl]

theorem render_afterRead_series_run (n : Int) (m : Nat) :
    render (afterRead (seriesEvents n m ++ [.endl])) =
      "Fibonacci Series: 0, 1" ++ furtherTerms (printedTerms (loopEvents 0 m)) ++ "\n" := by
  rw [afterRead_series_run, render_append, render_afterRead_seriesEvents, render_endl]

set_option maxRecDepth 100000 in
theorem fibTerm_45 : fibTerm 45 = 1134903170 := by decide

set_option maxRecDepth 100000 in
theorem fibTerm_46 : fibTerm 46 = 1836311903 := by decide

set_option maxRecDepth 100000 in
theorem fibTerm_47 : fibTerm 47 = -1323752223 := by decide

set_option maxRecDepth 100000 in
theorem series_not_in_invalid_message :
    ¬ ("Fibonacci Series".data <:+:
      "Enter the number of terms: Please enter a positive integer for the number of terms.\n".data) := by
  decide

/-! ## The claims -/

/-- C1 (counterexample): in the run with count = 48 the printed terms number 46, 47 and 48
are 1134903170, 1836311903 and -1323752223, and the last is not the ordinary sum of the two
before it. -/
theorem terms_plain_sum_fails_at_48 :
    ∃ r, main 46 48 = .ok r ∧
      (printedTerms r.trace)[45]? = some 1134903170 ∧
      (printedTerms r.trace)[46]? = some 1836311903 ∧
      (printedTerms r.trace)[47]? = some (-1323752223) ∧
      (-1323752223 : Int) ≠ 1134903170 + 1836311903 := by
  refine ⟨_, main_series (by decide) (by decide) (by decide), ?_, ?_, ?_, by decide⟩
  · rw [getElem?_printedTerms_series_run _ _ _ (by decide), fibTerm_45]
  · rw [getElem?_printedTerms_series_run _ _ _ (by decide), fibTerm_46]
  · rw [getElem?_printedTerms_series_run _ _ _ (by decide), fibTerm_47]

/-- C2 (at the failing input): with count = 2147483647 the run does not reach `return`
within any number of passes through the loop body, and after `fuel` passes it has printed
`fuel + 2` terms, the first two being 0 and 1.  The number of printed terms therefore grows
past 2147483647: the run does not print exactly n terms. -/
theorem int_max_run_prints_unboundedly (fuel : Nat) :
    ∃ t, main fuel 2147483647 = .error t ∧ (printedTerms t).length = fuel + 2 ∧
      (printedTerms t).take 2 = [0, 1] := by
  refine ⟨_, main_int_max fuel, ?_, ?_⟩
  · rw [printedTerms_seriesEvents]; simp
  · simp [seriesEvents, printedTerms]

/-- C3: for every count ≤ 0 the run returns, the text written after the read is exactly the
line "Please enter a positive integer for the number of terms.", no integer is printed and
the text "Fibonacci Series" occurs nowhere on standard output. -/
theorem nonpositive_count_message (n : Int) (h : n ≤ 0) (fuel : Nat) :
    ∃ r, main fuel n = .ok r ∧
      render (afterRead r.trace) = "Please enter a positive integer for the number of terms.\n" ∧
      printedTerms r.trace = [] ∧
      ¬ ("Fibonacci Series".data <:+: (render r.trace).data) := by
  refine ⟨_, main_nonpos h fuel, rfl, rfl, ?_⟩
  have hr : render [.put "Enter the number of terms: ", .get n,
      .put "Please enter a positive integer for the number of terms.", .endl] =
      "Enter the number of terms: Please enter a positive integer for the number of terms.\n" :=
    rfl
  simp only [hr]
  exact series_not_in_invalid_message

/-- Witness of `nonpositive_count_message` at count = -7. -/
theorem nonpositive_count_message_witness :
    (-7 : Int) ≤ 0 ∧ ∃ r, main 0 (-7) = .ok r ∧
      render (afterRead r.trace) = "Please enter a positive integer for the number of terms.\n" ∧
      printedTerms r.trace = [] ∧
      ¬ ("Fibonacci Series".data <:+: (render r.trace).data) :=
  ⟨by decide, nonpositive_count_message (-7) (by decide) 0⟩

/-- C4 (at the failing input): with count = 2147483647 the run does not reach `return`
within any number of passes through the loop body and `std::endl` is never written: the
result line is never terminated. -/
theorem int_max_run_never_ends_line (fuel : Nat) :
    ∃ t, main fuel 2147483647 = .error t ∧ Event.endl ∉ t := by
  refine ⟨_, main_int_max fuel, ?_⟩
  simp [seriesEvents, endl_not_mem_loopEvents]

/-- C5 (counterexample): for count = 1 the complete text on standard output is
"Enter the number of terms: Fibonacci Series: 0" and a newline; it begins with the prompt, so
it is neither the invalid-range line, nor the line "Fibonacci Series: 0", nor any text that
begins with "Fibonacci Series: 0, 1". -/
theorem stdout_begins_with_prompt :
    ∃ r, main 0 1 = .ok r ∧
      render r.trace = "Enter the number of terms: Fibonacci Series: 0\n" ∧
      render r.trace ≠ "Please enter a positive integer for the number of terms.\n" ∧
      render r.trace ≠ "Fibonacci Series: 0\n" ∧
      ¬ ∃ rest, render r.trace = "Fibonacci Series: 0, 1" ++ rest := by
  refine ⟨_, main_one 0, by decide, by decide, by decide, ?_⟩
  rintro ⟨rest, h⟩
  have hd := congrArg (fun t : String => t.data.head?) h
  have hl : (render (Result.mk [.put "Enter the number of terms: ", .get 1,
      .put "Fibonacci Series: ", .putInt 0, .endl] 0).trace).data.head? = some 'E' := by decide
  have hr : ("Fibonacci Series: 0, 1" ++ rest).data.head? = some 'F' := rfl
  simp only [hl, hr] at hd
  exact absurd hd (by decide)

/-- C5 (amended): for every count below INT_MAX the run of main returns and the complete text
on standard output is the prompt "Enter the number of terms: ", then exactly one of the three
messages (the invalid-range message when count ≤ 0, "Fibonacci Series: 0" when count = 1,
"Fibonacci Series: 0, 1" plus count - 2 further terms each written as ", <value>" when
count ≥ 2), then a newline, and nothing else. -/
theorem stdout_prompt_then_message (n : Int) (hmax : n < INT_MAX) :
    ∃ fuel r, main fuel n = .ok r ∧ ∃ msg,
      render r.trace = "Enter the number of terms: " ++ msg ++ "\n" ∧
      ((n ≤ 0 ∧ msg = "Please enter a positive integer for the number of terms.") ∨
       (n = 1 ∧ msg = "Fibonacci Series: 0") ∨
       (2 ≤ n ∧ ∃ vs : List Int, (vs.length : Int) = n - 2 ∧
          msg = "Fibonacci Series: 0, 1" ++ furtherTerms vs)) := by
  rcases le_or_lt n 0 with h0 | h0
  · exact ⟨0, _, main_nonpos h0 0, _, rfl, Or.inl ⟨h0, rfl⟩⟩
  rcases eq_or_lt_of_le (show (1 : Int) ≤ n by omega) with h1 | h1
  · subst h1
    exact ⟨0, _, main_one 0, _, rfl, Or.inr (Or.inl ⟨rfl, rfl⟩)⟩
  · have h2 : 2 ≤ n := by omega
    refine ⟨(n - 2).toNat, _, main_series h2 hmax le_rfl, _, ?_,
      Or.inr (Or.inr ⟨h2, printedTerms (loopEvents 0 (n - 2).toNat), ?_, rfl⟩)⟩
    · rw [render_series_run, String.append_assoc]
    · rw [length_printedTerms_loopEvents]; omega

/-- Witness of `stdout_prompt_then_message` at count = 5. -/
theorem stdout_prompt_then_message_witness :
    (5 : Int) < INT_MAX ∧
    ∃ fuel r, main fuel 5 = .ok r ∧ ∃ msg,
      render r.trace = "Enter the number of terms: " ++ msg ++ "\n" ∧
      (((5 : Int) ≤ 0 ∧ msg = "Please enter a positive integer for the number of terms.") ∨
       ((5 : Int) = 1 ∧ msg = "Fibonacci Series: 0") ∨
       ((2 : Int) ≤ 5 ∧ ∃ vs : List Int, (vs.length : Int) = 5 - 2 ∧
          msg = "Fibonacci Series: 0, 1" ++ furtherTerms vs)) :=
  ⟨by decide, stdout_prompt_then_message 5 (by decide)⟩

/-- C6 (at the failing input): with count = 2147483647 the run of main does not reach
`return` within any number of passes through the loop body: the loop does not terminate. -/
theorem int_max_run_never_returns (fuel : Nat) (r : Result) :
    main fuel 2147483647 ≠ .ok r := by
  rw [main_int_max]
  intro h
  cases h

/-- C7: for count = 1 the run returns whatever the bound on loop passes (the loop is not
entered), the text written after the read is exactly the line "Fibonacci Series: 0", and the
only printed term is 0. -/
theorem count_one_line (fuel : Nat) :
    ∃ r, main fuel 1 = .ok r ∧ render (afterRead r.trace) = "Fibonacci Series: 0\n" ∧
      printedTerms r.trace = [0] :=
  ⟨_, main_one fuel, by decide, rfl⟩

/-- C8: for count = 2 the run returns even when no pass through the loop body is allowed
(the loop from i = 3 executes zero times), the text written after the read is exactly the
line "Fibonacci Series: 0, 1", and the printed terms are 0 and 1. -/
theorem count_two_line (fuel : Nat) :
    ∃ r, main fuel 2 = .ok r ∧ render (afterRead r.trace) = "Fibonacci Series: 0, 1\n" ∧
      printedTerms r.trace = [0, 1] :=
  ⟨_, main_series (by decide) (by decide) (Nat.zero_le fuel), by decide, rfl⟩

/-- C9: for count = 5 the run returns after 3 passes through the loop body and the text
written after the read is exactly the line "Fibonacci Series: 0, 1, 1, 2, 3"; for count = 7
it returns after 5 passes and the printed terms are exactly 0, 1, 1, 2, 3, 5, 8. -/
theorem count_five_and_seven :
    (∃ r, main 3 5 = .ok r ∧
      render (afterRead r.trace) = "Fibonacci Series: 0, 1, 1, 2, 3\n") ∧
    (∃ r, main 5 7 = .ok r ∧ printedTerms r.trace = [0, 1, 1, 2, 3, 5, 8]) :=
  ⟨⟨_, rfl, by decide⟩, ⟨_, rfl, by decide⟩⟩

/-- C10: for every count, every run of main that returns does so with exit status 0, and for
every count below INT_MAX (in particular every count ≤ 0, the invalid-range branch) such a
run exists. -/
theorem exit_status_zero (n : Int) :
    (∀ fuel r, main fuel n = .ok r → r.status = 0) ∧
    (n < INT_MAX → ∃ fuel r, main fuel n = .ok r ∧ r.status = 0) := by
  constructor
  · intro fuel r h
    unfold main at h
    simp only [State.out] at h
    split_ifs at h
    · cases h; rfl
    · cases h; rfl
    · split at h
      · cases h
      · cases h; rfl
  · intro hmax
    rcases le_or_lt n 0 with h0 | h0
    · exact ⟨0, _, main_nonpos h0 0, rfl⟩
    rcases eq_or_lt_of_le (show (1 : Int) ≤ n by omega) with h1 | h1
    · subst h1
      exact ⟨0, _, main_one 0, rfl⟩
    · exact ⟨(n - 2).toNat, _, main_series (by omega) hmax le_rfl, rfl⟩

/-- Witness of `exit_status_zero` at count = -4, in the invalid-range branch. -/
theorem exit_status_zero_witness :
    (-4 : Int) < INT_MAX ∧ (∃ fuel r, main fuel (-4) = .ok r ∧ r.status = 0) ∧
      (∀ fuel r, main fuel (-4) = .ok r → r.status = 0) :=
  ⟨by decide, (exit_status_zero (-4)).2 (by decide), (exit_status_zero (-4)).1⟩

/-! ## Passes through the loop body -/

theorem main_eq_loop {n : Int} (h0 : ¬ n ≤ 0) (h1 : ¬ n = 1) (fuel : Nat) :
    main fuel n = match loop fuel 3 (loopEntry n) with
      | .error s => .error s.trace
      | .ok s => .ok { trace := s.trace ++ [.endl], status := 0 } := by
  simp only [main, h0, h1, if_false, State.out, loopEntry, List.cons_append, List.nil_append]

/-- The loop stops on the bound after `k` passes exactly when pass number `k` would start. -/
theorem loop_error_iff_passStart (k : Nat) : ∀ (i : Int) (s s' : State),
    loop k i s = .error s' ↔ ∃ i', passStart k i s = some (i', s') := by
  induction k with
  | zero =>
    intro i s s'
    by_cases h : i ≤ s.n <;> simp [loop, passStart, h]
  | succ k ih =>
    intro i s s'
    by_cases h : i ≤ s.n
    · simp only [loop, passStart, h, if_true]; exact ih _ _ _
    · simp [loop, passStart, h]

/-- While the counter stays at most `n ≤ INT_MAX`, pass number `k` starts with counter `i + k`
and with `t1`, `t2` two consecutive terms of the wrapped sequence. -/
theorem passStart_spec (k : Nat) : ∀ (i : Int) (s : State) (j : Nat),
    i + k ≤ s.n → s.n ≤ INT_MAX → INT_MIN ≤ i →
    s.t1 = fibTerm j → s.t2 = fibTerm (j + 1) →
    ∃ s', passStart k i s = some (i + k, s') ∧ s'.t1 = fibTerm (j + k) ∧
      s'.t2 = fibTerm (j + k + 1) ∧ s'.trace = s.trace ++ loopEvents j k := by
  induction k with
  | zero =>
    intro i s j hi _ _ h1 h2
    have hle : i ≤ s.n := by simpa using hi
    exact ⟨s, by simp [passStart, hle], h1, h2, by simp [loopEvents]⟩
  | succ k ih =>
    intro i s j hi hn hlo h1 h2
    push_cast at hi
    have hle : i ≤ s.n := by omega
    have hw : wrapInt (i + 1) = i + 1 := by
      apply wrapInt_of_range
      · unfold INT_MIN at *; omega
      · unfold INT_MAX at *; omega
    obtain ⟨s', hs', ht1, ht2, htr⟩ := ih (i + 1) (loopBody s) (j + 1)
      (by rw [loopBody_n]; omega) (by rw [loopBody_n]; exact hn) (by omega)
      (by rw [loopBody_t1, h2]) (by rw [loopBody_t2, h1, h2]; rfl)
    refine ⟨s', ?_, ?_, ?_, ?_⟩
    · simp only [passStart, hle, if_true, hw, hs']
      push_cast
      rw [show i + 1 + (k : Int) = i + ((k : Int) + 1) by ring]
    · rw [ht1]; congr 1; omega
    · rw [ht2]; congr 1; omega
    · rw [htr, loopBody_trace, h1, h2, List.append_assoc]; rfl

/-- Once the counter has passed `n < INT_MAX` no further pass starts. -/
theorem passStart_none (k : Nat) : ∀ (i : Int) (s : State),
    s.n < i + k → INT_MIN ≤ i → s.n < INT_MAX → i ≤ s.n + 1 → passStart k i s = none := by
  induction k with
  | zero =>
    intro i s h _ _ _
    have : ¬ i ≤ s.n := by simpa using h
    simp [passStart, this]
  | succ k ih =>
    intro i s h hlo hn hi
    push_cast at h
    by_cases hle : i ≤ s.n
    · have hw : wrapInt (i + 1) = i + 1 := by
        apply wrapInt_of_range
        · unfold INT_MIN at *; omega
        · unfold INT_MAX at *; omega
      simp only [passStart, hle, if_true, hw]
      exact ih (i + 1) (loopBody s) (by rw [loopBody_n]; omega) (by omega)
        (by rw [loopBody_n]; exact hn) (by rw [loopBody_n]; omega)
    · simp [passStart, hle]

theorem main_running {n : Int} (h2 : 2 ≤ n) (hmax : n ≤ INT_MAX) {fuel : Nat}
    (hf : (3 : Int) + fuel ≤ n) : main fuel n = .error (seriesEvents n fuel) := by
  obtain ⟨s', hs', -, -, htr⟩ := passStart_spec fuel 3 (loopEntry n) 0 hf hmax
    (by unfold INT_MIN; omega) rfl rfl
  have hl : loop fuel 3 (loopEntry n) = .error s' :=
    (loop_error_iff_passStart fuel 3 (loopEntry n) s').2 ⟨_, hs'⟩
  rw [main_eq_loop (by omega) (by omega), hl]
  simp only [htr, loopEntry, seriesEvents, List.cons_append, List.nil_append]

theorem min_le_fibTerm (k : Nat) : INT_MIN ≤ fibTerm k := by
  rw [fibTerm_eq_wrapInt_fib]; exact min_le_wrapInt _

theorem passStart_entry {n : Int} (hmax : n < INT_MAX) {k : Nat} {i : Int} {s : State}
    (h : passStart k 3 (loopEntry n) = some (i, s)) :
    i = 3 + k ∧ i ≤ n ∧ s.t1 = fibTerm k ∧ s.t2 = fibTerm (k + 1) := by
  by_cases hk : (3 : Int) + k ≤ n
  · obtain ⟨s', hs', ht1, ht2, -⟩ := passStart_spec k 3 (loopEntry n) 0 hk (le_of_lt hmax)
      (by unfold INT_MIN; omega) rfl rfl
    rw [hs'] at h
    simp only [Option.some.injEq, Prod.mk.injEq] at h
    obtain ⟨rfl, rfl⟩ := h
    simp only [Nat.zero_add] at ht1 ht2
    exact ⟨rfl, hk, ht1, ht2⟩
  · by_cases h3 : (3 : Int) ≤ n + 1
    · rw [passStart_none k 3 (loopEntry n) (by show n < 3 + (k : Int); omega)
        (by unfold INT_MIN; omega) hmax h3] at h
      cases h
    · have hn : ¬ (3 : Int) ≤ (loopEntry n).n := by show ¬ (3 : Int) ≤ n; omega
      cases k <;> simp [passStart, hn] at h

/-! ## Claims on the loop invariant and on wrap-around -/

/-- C11 (counterexample): for n = 3, at the start of the iteration with index i = 3 the
variable t1 holds 0, which is the 0th term and not the (i-2)-th = 1st term (1) of the
zero-indexed Fibonacci sequence; and for n = 50, at the start of the iteration with index
i = 50, t1 holds the wrapped value -1323752223, which is no Fibonacci number. -/
theorem invariant_index_off_by_one :
    (∃ s, passStart 0 3 (loopEntry 3) = some (3, s) ∧ s.t1 = 0 ∧
      s.t1 ≠ (Nat.fib (3 - 2) : Int)) ∧
    (∃ s, passStart 47 3 (loopEntry 50) = some (50, s) ∧ s.t1 = -1323752223 ∧
      ∀ m : Nat, s.t1 ≠ (Nat.fib m : Int)) := by
  refine ⟨⟨_, rfl, rfl, by decide⟩, ?_⟩
  obtain ⟨s', hs', ht1, -, -⟩ := passStart_spec 47 3 (loopEntry 50) 0 (by decide) (by decide)
    (by decide) rfl rfl
  rw [Nat.zero_add, fibTerm_47] at ht1
  refine ⟨s', hs', ht1, ?_⟩
  intro m hm
  rw [ht1] at hm
  have : (0 : Int) ≤ (Nat.fib m : Int) := Int.natCast_nonneg _
  omega

/-- C11 (amended): for every n with 3 ≤ n < INT_MAX and every loop index i with 3 ≤ i ≤ n,
the iteration with index i takes place (it is pass number i - 3), and at the start of every
iteration, with index i, the variables t1 and t2 hold the (i-3)-th and (i-2)-th terms of the
zero-indexed Fibonacci sequence reduced to 32 bits; for i ≤ 48 these are the terms
themselves. -/
theorem loop_invariant_shifted (n : Int) (_h3 : 3 ≤ n) (hmax : n < INT_MAX) :
    (∀ i : Nat, 3 ≤ i → (i : Int) ≤ n →
      ∃ s, passStart (i - 3) 3 (loopEntry n) = some ((i : Int), s)) ∧
    (∀ (k : Nat) (i : Int) (s : State), passStart k 3 (loopEntry n) = some (i, s) →
      3 ≤ i ∧ i ≤ n ∧ k = i - 3 ∧
      s.t1 = wrapInt (Nat.fib (i - 3).toNat) ∧ s.t2 = wrapInt (Nat.fib (i - 2).toNat) ∧
      (i ≤ 48 → s.t1 = Nat.fib (i - 3).toNat ∧ s.t2 = Nat.fib (i - 2).toNat)) := by
  constructor
  · intro i hi3 hin
    obtain ⟨s', hs', -⟩ := passStart_spec (i - 3) 3 (loopEntry n) 0
      (by show (3 : Int) + ((i - 3 : Nat) : Int) ≤ n; omega) (le_of_lt hmax)
      (by unfold INT_MIN; omega) rfl rfl
    refine ⟨s', ?_⟩
    rw [hs']
    congr 2
    omega
  · intro k i s h
    obtain ⟨rfl, hin, ht1, ht2⟩ := passStart_entry hmax h
    have e1 : ((3 : Int) + k - 3).toNat = k := by omega
    have e2 : ((3 : Int) + k - 2).toNat = k + 1 := by omega
    rw [e1, e2]
    refine ⟨by omega, hin, by omega, ?_, ?_, ?_⟩
    · rw [ht1, fibTerm_eq_wrapInt_fib]
    · rw [ht2, fibTerm_eq_wrapInt_fib]
    · intro h48
      rw [ht1, ht2, fibTerm_eq_fib (by omega : k ≤ 46), fibTerm_eq_fib (by omega : k + 1 ≤ 46)]
      exact ⟨rfl, rfl⟩

/-- Witness of `loop_invariant_shifted` at n = 50. -/
theorem loop_invariant_shifted_witness :
    (3 : Int) ≤ 50 ∧ (50 : Int) < INT_MAX ∧
    (∀ i : Nat, 3 ≤ i → (i : Int) ≤ 50 →
      ∃ s, passStart (i - 3) 3 (loopEntry 50) = some ((i : Int), s)) ∧
    (∀ (k : Nat) (i : Int) (s : State), passStart k 3 (loopEntry 50) = some (i, s) →
      3 ≤ i ∧ i ≤ 50 ∧ k = i - 3 ∧
      s.t1 = wrapInt (Nat.fib (i - 3).toNat) ∧ s.t2 = wrapInt (Nat.fib (i - 2).toNat) ∧
      (i ≤ 48 → s.t1 = Nat.fib (i - 3).toNat ∧ s.t2 = Nat.fib (i - 2).toNat)) :=
  ⟨by decide, by decide, loop_invariant_shifted 50 (by decide) (by decide)⟩

/-- C12: for every n with 2 ≤ n < INT_MAX the run of main with count = n returns with status
0, and for every k with 1 ≤ k ≤ n the k-th printed term is the Fibonacci number F(k-1)
reduced modulo 2^32 into the signed range [-2^31, 2^31 - 1]; from the third term onward it is
the wrapped 32-bit sum of the two printed terms before it. -/
theorem terms_are_wrapped_fibonacci (n : Int) (h2 : 2 ≤ n) (hmax : n < INT_MAX) :
    ∃ fuel r, main fuel n = .ok r ∧ r.status = 0 ∧ ∀ k : Nat, 1 ≤ k → (k : Int) ≤ n →
      ∃ v, (printedTerms r.trace)[k - 1]? = some v ∧
        v = wrapInt (Nat.fib (k - 1)) ∧
        INT_MIN ≤ v ∧ v ≤ INT_MAX ∧ (v - (Nat.fib (k - 1) : Int)) % 4294967296 = 0 ∧
        (3 ≤ k → ∃ a b, (printedTerms r.trace)[k - 3]? = some a ∧
          (printedTerms r.trace)[k - 2]? = some b ∧ v = wrapInt (a + b)) := by
  refine ⟨(n - 2).toNat, _, main_series h2 hmax le_rfl, rfl, ?_⟩
  intro k h1 hk
  obtain ⟨j, rfl⟩ : ∃ j, k = j + 1 := ⟨k - 1, by omega⟩
  simp only [Nat.add_sub_cancel]
  refine ⟨fibTerm j, getElem?_printedTerms_series_run _ _ _ (by omega),
    fibTerm_eq_wrapInt_fib j, min_le_fibTerm j, ?_, ?_, ?_⟩
  · rw [fibTerm_eq_wrapInt_fib]; exact wrapInt_le_max _
  · rw [fibTerm_eq_wrapInt_fib]; unfold wrapInt; omega
  · intro h3
    obtain ⟨q, rfl⟩ : ∃ q, j = q + 2 := ⟨j - 2, by omega⟩
    exact ⟨fibTerm q, fibTerm (q + 1), getElem?_printedTerms_series_run _ _ _ (by omega),
      getElem?_printedTerms_series_run _ _ _ (by omega), fibTerm_add_two q⟩

/-- Witness of `terms_are_wrapped_fibonacci` at count = 60. -/
theorem terms_are_wrapped_fibonacci_witness :
    (2 : Int) ≤ 60 ∧ (60 : Int) < INT_MAX ∧
    ∃ fuel r, main fuel 60 = .ok r ∧ r.status = 0 ∧ ∀ k : Nat, 1 ≤ k → (k : Int) ≤ 60 →
      ∃ v, (printedTerms r.trace)[k - 1]? = some v ∧
        v = wrapInt (Nat.fib (k - 1)) ∧
        INT_MIN ≤ v ∧ v ≤ INT_MAX ∧ (v - (Nat.fib (k - 1) : Int)) % 4294967296 = 0 ∧
        (3 ≤ k → ∃ a b, (printedTerms r.trace)[k - 3]? = some a ∧
          (printedTerms r.trace)[k - 2]? = some b ∧ v = wrapInt (a + b)) :=
  ⟨by decide, by decide, terms_are_wrapped_fibonacci 60 (by decide) (by decide)⟩

/-! ## Traces of runs, returned or not -/

theorem runTrace_one (fuel : Nat) :
    runTrace fuel 1 = [.put "Enter the number of terms: ", .get 1,
      .put "Fibonacci Series: ", .putInt 0, .endl] := by
  simp only [runTrace, main_one]

theorem runTrace_series {n : Int} (h2 : 2 ≤ n) (hmax : n < INT_MAX) {fuel : Nat}
    (hf : (n - 2).toNat ≤ fuel) :
    runTrace fuel n = seriesEvents n (n - 2).toNat ++ [.endl] := by
  simp only [runTrace, main_series h2 hmax hf]

theorem runTrace_running {n : Int} (h2 : 2 ≤ n) (hmax : n ≤ INT_MAX) {fuel : Nat}
    (hf : (3 : Int) + fuel ≤ n) : runTrace fuel n = seriesEvents n fuel := by
  simp only [runTrace, main_running h2 hmax hf]

theorem runTrace_int_max (fuel : Nat) :
    runTrace fuel 2147483647 = seriesEvents 2147483647 fuel := by
  simp only [runTrace, main_int_max]

/-- The terms printed within `fuel` passes by a run for `2 ≤ n ≤ INT_MAX` are the first
`m + 2` terms of the wrapped sequence, `m` being the number of passes made. -/
theorem printedTerms_runTrace {n : Int} (h2 : 2 ≤ n) (hmax : n ≤ INT_MAX) (fuel : Nat) :
    ∃ m, printedTerms (runTrace fuel n) = (List.range (m + 2)).map fibTerm ∧
      m ≤ fuel ∧ (n < INT_MAX → (m : Int) + 2 ≤ n) ∧ (fuel ≤ m ∨ n ≤ (m : Int) + 2) := by
  rcases eq_or_lt_of_le hmax with he | hlt
  · have he' : n = 2147483647 := he
    subst he'
    exact ⟨fuel, by rw [runTrace_int_max, printedTerms_seriesEvents], le_rfl,
      fun h => absurd h (by decide), Or.inl le_rfl⟩
  · by_cases hf : (n - 2).toNat ≤ fuel
    · exact ⟨(n - 2).toNat, by rw [runTrace_series h2 hlt hf, printedTerms_series_run],
        hf, fun _ => by omega, Or.inr (by omega)⟩
    · exact ⟨fuel, by rw [runTrace_running h2 hmax (by omega), printedTerms_seriesEvents],
        le_rfl, fun _ => by omega, Or.inl le_rfl⟩

theorem fib_47 : Nat.fib 47 = 2971215073 := by norm_num

theorem fib_le_int_max {k : Nat} (h : k ≤ 46) : (Nat.fib k : Int) ≤ INT_MAX := by
  have hle : Nat.fib k ≤ 1836311903 := fib_46 ▸ Nat.fib_mono h
  unfold INT_MAX; omega

theorem map_fibTerm_range {m : Nat} (h : m ≤ 47) :
    (List.range m).map fibTerm = (List.range m).map (fun k => (Nat.fib k : Int)) := by
  apply List.map_congr_left
  intro k hk
  rw [List.mem_range] at hk
  exact fibTerm_eq_fib (by omega)

theorem pairwise_le_fib_range (m : Nat) :
    ((List.range m).map (fun k => (Nat.fib k : Int))).Pairwise (· ≤ ·) := by
  rw [List.pairwise_map]
  exact (List.pairwise_lt_range m).imp (fun h => Int.ofNat_le.mpr (Nat.fib_mono (le_of_lt h)))

/-! ## Growth of the output with the count -/

theorem loopEvents_succ (j m : Nat) :
    loopEvents j (m + 1) = loopEvents j m ++ [.put ", ", .putInt (fibTerm (j + m + 2))] := by
  induction m generalizing j with
  | zero => rfl
  | succ m ih =>
    rw [loopEvents, ih (j + 1), loopEvents, List.cons_append, List.cons_append]
    rw [show j + 1 + m + 2 = j + (m + 1) + 2 by omega]

theorem furtherTerms_append (a b : List Int) :
    furtherTerms (a ++ b) = furtherTerms a ++ furtherTerms b := by
  induction a with
  | nil => simp [furtherTerms]
  | cons v vs ih => simp [furtherTerms, ih, String.append_assoc]

/-! ## Runs with at most 47 terms and runs with more -/

theorem getElem?_printedTerms_runTrace {n : Int} (h2 : 2 ≤ n) (hmax : n ≤ INT_MAX)
    {fuel k : Nat} {v : Int} (h : (printedTerms (runTrace fuel n))[k]? = some v) :
    v = fibTerm k ∧ (n < INT_MAX → (k : Int) < n) := by
  obtain ⟨m, hm, -, hlt, -⟩ := printedTerms_runTrace h2 hmax fuel
  rw [hm] at h
  by_cases hk : k < m + 2
  · rw [List.getElem?_map, List.getElem?_range hk] at h
    simp only [Option.map_some', Option.some.injEq] at h
    exact ⟨h.symm, fun hl => by have := hlt hl; omega⟩
  · rw [List.getElem?_eq_none (by simp; omega)] at h
    cases h

theorem term_48_wrapped {n : Int} (h48 : 48 ≤ n) (hmax : n ≤ INT_MAX) {fuel : Nat}
    (hf : 46 ≤ fuel) : (printedTerms (runTrace fuel n))[47]? = some (-1323752223) := by
  obtain ⟨m, hm, -, -, hge⟩ := printedTerms_runTrace (by omega : 2 ≤ n) hmax fuel
  rw [hm, List.getElem?_map, List.getElem?_range (by omega)]
  simp only [Option.map_some', fibTerm_47]

theorem terms_exact_of_le_47 {n : Int} (h1 : 1 ≤ n) (h47 : n ≤ 47) {fuel k : Nat} {v : Int}
    (h : (printedTerms (runTrace fuel n))[k]? = some v) : v = Nat.fib k := by
  rcases eq_or_lt_of_le h1 with he | hl
  · subst he
    rw [runTrace_one] at h
    simp only [printedTerms] at h
    cases k with
    | zero => simp at h; simp [← h]
    | succ k => simp at h
  · obtain ⟨hv, hk⟩ := getElem?_printedTerms_runTrace (by omega : 2 ≤ n)
      (by unfold INT_MAX; omega) h
    have := hk (by unfold INT_MAX; omega)
    rw [hv, fibTerm_eq_fib (by omega)]

theorem no_overflow_of_le_47 {n : Int} (h47 : n ≤ 47) {k : Nat} {i : Int} {s : State}
    (h : passStart k 3 (loopEntry n) = some (i, s)) :
    0 ≤ s.t1 + s.t2 ∧ s.t1 + s.t2 ≤ INT_MAX ∧ wrapInt (s.t1 + s.t2) = s.t1 + s.t2 := by
  obtain ⟨rfl, hin, ht1, ht2⟩ := passStart_entry (by unfold INT_MAX; omega) h
  have hs : s.t1 + s.t2 = (Nat.fib (k + 2) : Int) := by
    rw [ht1, ht2, fibTerm_eq_fib (by omega), fibTerm_eq_fib (by omega), Nat.fib_add_two]
    push_cast; rfl
  have hmax := fib_le_int_max (by omega : k + 2 ≤ 46)
  have h0 : (0 : Int) ≤ (Nat.fib (k + 2) : Int) := Int.natCast_nonneg _
  rw [hs]
  exact ⟨h0, hmax, wrapInt_of_range (by unfold INT_MIN; omega) hmax⟩

theorem run_exact_of_le_47 {n : Int} (h1 : 1 ≤ n) (h47 : n ≤ 47) :
    ∃ fuel r, main fuel n = .ok r ∧
      printedTerms r.trace = (List.range n.toNat).map (fun k => (Nat.fib k : Int)) := by
  rcases eq_or_lt_of_le h1 with he | hl
  · subst he
    exact ⟨0, _, main_one 0, by simp [printedTerms, List.range_succ]⟩
  · refine ⟨(n - 2).toNat, _, main_series (by omega) (by unfold INT_MAX; omega) le_rfl, ?_⟩
    rw [printedTerms_series_run, show (n - 2).toNat + 2 = n.toNat by omega]
    exact map_fibTerm_range (by omega)

/-! ## Claims on exactness and on prefixes -/

/-- C13: with a 32-bit int and a count n with 1 ≤ n ≤ INT_MAX, the printed terms all equal
the true Fibonacci numbers if and only if n ≤ 47.  For n ≤ 47 the run returns, the printed
terms are F(0), ..., F(n-1), all non-negative and non-decreasing, and no addition of the loop
overflows; for n ≥ 48 the 48th printed term is the wrapped value -1323752223 whereas
F(47) = 2971215073. -/
theorem exact_terms_iff_at_most_47 (n : Int) (h1 : 1 ≤ n) (hmax : n ≤ INT_MAX) :
    ((∀ (fuel k : Nat) (v : Int),
        (printedTerms (runTrace fuel n))[k]? = some v → v = Nat.fib k) ↔ n ≤ 47) ∧
    (n ≤ 47 → ∃ fuel r, main fuel n = .ok r ∧
      printedTerms r.trace = (List.range n.toNat).map (fun k => (Nat.fib k : Int)) ∧
      (∀ v ∈ printedTerms r.trace, 0 ≤ v) ∧
      (printedTerms r.trace).Pairwise (· ≤ ·) ∧
      (∀ (k : Nat) (i : Int) (s : State), passStart k 3 (loopEntry n) = some (i, s) →
        0 ≤ s.t1 + s.t2 ∧ s.t1 + s.t2 ≤ INT_MAX ∧ wrapInt (s.t1 + s.t2) = s.t1 + s.t2)) ∧
    (48 ≤ n → (Nat.fib 47 : Int) = 2971215073 ∧
      ∀ fuel, 46 ≤ fuel → (printedTerms (runTrace fuel n))[47]? = some (-1323752223)) := by
  refine ⟨⟨?_, ?_⟩, ?_, ?_⟩
  · intro h
    by_contra hn
    have h48 := h 46 47 _ (term_48_wrapped (by omega : 48 ≤ n) hmax le_rfl)
    rw [fib_47] at h48
    omega
  · intro h47 fuel k v hv
    exact terms_exact_of_le_47 h1 h47 hv
  · intro h47
    obtain ⟨fuel, r, hr, ht⟩ := run_exact_of_le_47 h1 h47
    refine ⟨fuel, r, hr, ht, ?_, ?_, fun k i s h => no_overflow_of_le_47 h47 h⟩
    · intro v hv
      rw [ht, List.mem_map] at hv
      obtain ⟨k, -, rfl⟩ := hv
      exact Int.natCast_nonneg _
    · rw [ht]; exact pairwise_le_fib_range _
  · intro h48
    exact ⟨by rw [fib_47]; rfl, fun fuel hf => term_48_wrapped h48 hmax hf⟩

/-- Witness of `exact_terms_iff_at_most_47` at count = 47, the last count whose terms are all
exact, and at count = 48, the first count with a wrapped term. -/
theorem exact_terms_iff_at_most_47_witness :
    ((1 : Int) ≤ 47 ∧ (47 : Int) ≤ INT_MAX ∧ (47 : Int) ≤ 47 ∧
      ∃ fuel r, main fuel 47 = .ok r ∧
        printedTerms r.trace = (List.range (47 : Int).toNat).map (fun k => (Nat.fib k : Int)) ∧
        (∀ v ∈ printedTerms r.trace, 0 ≤ v) ∧
        (printedTerms r.trace).Pairwise (· ≤ ·) ∧
        (∀ (k : Nat) (i : Int) (s : State), passStart k 3 (loopEntry 47) = some (i, s) →
          0 ≤ s.t1 + s.t2 ∧ s.t1 + s.t2 ≤ INT_MAX ∧ wrapInt (s.t1 + s.t2) = s.t1 + s.t2)) ∧
    ((1 : Int) ≤ 48 ∧ (48 : Int) ≤ INT_MAX ∧ (48 : Int) ≤ 48 ∧
      (Nat.fib 47 : Int) = 2971215073 ∧
      ∀ fuel, 46 ≤ fuel → (printedTerms (runTrace fuel 48))[47]? = some (-1323752223)) :=
  ⟨⟨by decide, by decide, by decide,
      (exact_terms_iff_at_most_47 47 (by decide) (by decide)).2.1 (by decide)⟩,
    ⟨by decide, by decide, by decide,
      (exact_terms_iff_at_most_47 48 (by decide) (by decide)).2.2 (by decide)⟩⟩

/-- C14: for every n ≥ 1 with n + 1 below INT_MAX the runs of main with count = n and with
count = n + 1 both return; the list of terms printed for n is a prefix of the list printed
for n + 1, and the result line for n (without its newline) is a string prefix of the result
line for n + 1: the latter is the former followed by ", " and the one further term. -/
theorem output_prefix_of_next (n : Int) (h1 : 1 ≤ n) (hmax : n + 1 < INT_MAX) :
    ∃ f1 r1 f2 r2 l1 l2, main f1 n = .ok r1 ∧ main f2 (n + 1) = .ok r2 ∧
      printedTerms r1.trace <+: printedTerms r2.trace ∧
      render (afterRead r1.trace) = l1 ++ "\n" ∧
      render (afterRead r2.trace) = l2 ++ "\n" ∧
      l1.data <+: l2.data ∧
      ∃ v, printedTerms r2.trace = printedTerms r1.trace ++ [v] ∧
        l2 = l1 ++ (", " ++ decimal v) := by
  rcases eq_or_lt_of_le h1 with he | hl
  · subst he
    refine ⟨0, _, 0, _, "Fibonacci Series: 0", "Fibonacci Series: 0, 1", main_one 0,
      main_series (by decide) (by decide) (Nat.zero_le 0), ?_, by decide, by decide,
      by decide, 1, by decide, by decide⟩
    decide
  · have h2 : 2 ≤ n := by omega
    have hm : (n + 1 - 2).toNat = (n - 2).toNat + 1 := by omega
    have hev : loopEvents 0 ((n - 2).toNat + 1) = loopEvents 0 (n - 2).toNat ++
        [.put ", ", .putInt (fibTerm ((n - 2).toNat + 2))] := by
      rw [loopEvents_succ, Nat.zero_add]
    have hterms : printedTerms (seriesEvents (n + 1) ((n - 2).toNat + 1) ++ [.endl]) =
        printedTerms (seriesEvents n (n - 2).toNat ++ [.endl]) ++
          [fibTerm ((n - 2).toNat + 2)] := by
      rw [printedTerms_series_run, printedTerms_series_run, List.range_succ, List.map_append]
      rfl
    have hline : "Fibonacci Series: 0, 1" ++
        furtherTerms (printedTerms (loopEvents 0 ((n - 2).toNat + 1))) =
        "Fibonacci Series: 0, 1" ++ furtherTerms (printedTerms (loopEvents 0 (n - 2).toNat)) ++
          (", " ++ decimal (fibTerm ((n - 2).toNat + 2))) := by
      rw [hev, printedTerms_append, furtherTerms_append, String.append_assoc]
      simp [printedTerms, furtherTerms]
    refine ⟨(n - 2).toNat, _, (n + 1 - 2).toNat, _, _, _,
      main_series h2 (by omega) le_rfl, main_series (by omega) hmax le_rfl, ?_,
      render_afterRead_series_run _ _, render_afterRead_series_run _ _, ?_,
      fibTerm ((n - 2).toNat + 2), ?_, ?_⟩
    · simp only [hm, hterms]; exact List.prefix_append _ _
    · simp only [hm, hline, String.data_append]; exact List.prefix_append _ _
    · simp only [hm, hterms]
    · simp only [hm, hline]

/-- Witness of `output_prefix_of_next` at count = 1, across the branch boundary. -/
theorem output_prefix_of_next_witness :
    (1 : Int) ≤ 1 ∧ (1 : Int) + 1 < INT_MAX ∧
    ∃ f1 r1 f2 r2 l1 l2, main f1 1 = .ok r1 ∧ main f2 (1 + 1) = .ok r2 ∧
      printedTerms r1.trace <+: printedTerms r2.trace ∧
      render (afterRead r1.trace) = l1 ++ "\n" ∧
      render (afterRead r2.trace) = l2 ++ "\n" ∧
      l1.data <+: l2.data ∧
      ∃ v, printedTerms r2.trace = printedTerms r1.trace ++ [v] ∧
        l2 = l1 ++ (", " ++ decimal v) :=
  ⟨by decide, by decide, output_prefix_of_next 1 (by decide) (by decide)⟩

/-! ## The recurrence of the printed terms, for every count -/

/-- C1 (amended): for every n with 2 ≤ n ≤ INT_MAX, in the run of main with count = n, for
every k with 3 ≤ k ≤ n the k-th term is printed (within k - 2 passes through the loop body),
and every printed term from the third onward equals the 32-bit wrapped sum of the two printed
terms immediately before it; for k ≤ 47 it is their sum as ordinary integers. -/
theorem terms_recurrence_wrapped (n : Int) (h2 : 2 ≤ n) (hmax : n ≤ INT_MAX) :
    (∀ k : Nat, 3 ≤ k → (k : Int) ≤ n → ∃ a b c,
      (printedTerms (runTrace (k - 2) n))[k - 3]? = some a ∧
      (printedTerms (runTrace (k - 2) n))[k - 2]? = some b ∧
      (printedTerms (runTrace (k - 2) n))[k - 1]? = some c) ∧
    (∀ (fuel k : Nat) (a b c : Int), 3 ≤ k →
      (printedTerms (runTrace fuel n))[k - 3]? = some a →
      (printedTerms (runTrace fuel n))[k - 2]? = some b →
      (printedTerms (runTrace fuel n))[k - 1]? = some c →
      c = wrapInt (a + b) ∧ (k ≤ 47 → c = a + b)) := by
  constructor
  · intro k h3 hk
    obtain ⟨m, hm, -, -, hge⟩ := printedTerms_runTrace h2 hmax (k - 2)
    have hlt : k - 1 < m + 2 := by omega
    refine ⟨fibTerm (k - 3), fibTerm (k - 2), fibTerm (k - 1), ?_, ?_, ?_⟩
    · rw [hm, List.getElem?_map, List.getElem?_range (by omega)]; rfl
    · rw [hm, List.getElem?_map, List.getElem?_range (by omega)]; rfl
    · rw [hm, List.getElem?_map, List.getElem?_range hlt]; rfl
  · intro fuel k a b c h3 ha hb hc
    obtain ⟨j, rfl⟩ : ∃ j, k = j + 3 := ⟨k - 3, by omega⟩
    have ea : j + 3 - 3 = j := by omega
    have eb : j + 3 - 2 = j + 1 := by omega
    have ec : j + 3 - 1 = j + 2 := by omega
    rw [ea] at ha
    rw [eb] at hb
    rw [ec] at hc
    obtain ⟨rfl, -⟩ := getElem?_printedTerms_runTrace h2 hmax ha
    obtain ⟨rfl, -⟩ := getElem?_printedTerms_runTrace h2 hmax hb
    obtain ⟨rfl, -⟩ := getElem?_printedTerms_runTrace h2 hmax hc
    refine ⟨fibTerm_add_two j, ?_⟩
    intro h47
    rw [fibTerm_eq_fib (by omega : j ≤ 46), fibTerm_eq_fib (by omega : j + 1 ≤ 46),
      fibTerm_eq_fib (by omega : j + 2 ≤ 46), Nat.fib_add_two]
    push_cast; rfl

/-- Witness of `terms_recurrence_wrapped` at count = 2147483647, the largest count. -/
theorem terms_recurrence_wrapped_witness :
    (2 : Int) ≤ 2147483647 ∧ (2147483647 : Int) ≤ INT_MAX ∧
    (∀ k : Nat, 3 ≤ k → (k : Int) ≤ 2147483647 → ∃ a b c,
      (printedTerms (runTrace (k - 2) 2147483647))[k - 3]? = some a ∧
      (printedTerms (runTrace (k - 2) 2147483647))[k - 2]? = some b ∧
      (printedTerms (runTrace (k - 2) 2147483647))[k - 1]? = some c) ∧
    (∀ (fuel k : Nat) (a b c : Int), 3 ≤ k →
      (printedTerms (runTrace fuel 2147483647))[k - 3]? = some a →
      (printedTerms (runTrace fuel 2147483647))[k - 2]? = some b →
      (printedTerms (runTrace fuel 2147483647))[k - 1]? = some c →
      c = wrapInt (a + b) ∧ (k ≤ 47 → c = a + b)) :=
  ⟨by decide, by decide, terms_recurrence_wrapped 2147483647 (by decide) (by decide)⟩

end Fibo
